import Mathlib

/-!
# Verification of the Card Game Score Tracker ledger logic

Shallow embedding of the score/round bookkeeping of the two front ends:

* the web variant (`src/src/App.tsx`): namespace `Web`;
* the mobile variant (`src/app/index.tsx`): namespace `Mobile`.

JavaScript numbers used as scores only ever hold integers here (all deltas
are ±1/±5 and sums thereof), so scores are embedded as `Int`.  The `id`
fields produced by `Date.now().toString()` are opaque unique tokens passed
in as parameters (web `Round.id` is dropped entirely: nothing reads it).
A JS object used as a string-keyed map is embedded as an association list
that mirrors JS key ordering: an update `{...prev, [k]: v}` keeps the key
in place when present and appends it otherwise, and `Object.entries`
returns the pairs in that order.
-/

/-- JavaScript `String.prototype.toLowerCase()` on the characters of a string. -/
def jsToLower (s : String) : String := ⟨s.data.map Char.toLower⟩

/-- JavaScript `String.prototype.trim()`: drop whitespace from both ends. -/
def jsTrim (s : String) : String :=
  ⟨((s.data.dropWhile Char.isWhitespace).reverse.dropWhile Char.isWhitespace).reverse⟩

namespace Web

/-- The `interface Player` of the web variant. -/
structure Player where
  id : String
  name : String
  deriving DecidableEq, Repr

/-- The `interface RoundScore` of the web variant. -/
structure RoundScore where
  playerId : String
  score : Int
  deriving DecidableEq, Repr

/-- The `interface Round` of the web variant (the `id : string` token is omitted; no logic reads it). -/
structure Round where
  number : Nat
  scores : List RoundScore
  total : Int
  deriving DecidableEq, Repr

/-- The component state that the ledger claims are about: `currentGame.players`,
`currentGame.rounds` and the `currentRoundScores` object. -/
structure GameState where
  players : List Player
  rounds : List Round
  pending : List (String × Int)
  deriving DecidableEq, Repr

/-- Reading `prev[k] || 0` on the pending-scores object: value of key `k`, `0` when absent
(`0 || 0` is `0`, so reading a stored `0` also yields `0`). -/
def objGet (m : List (String × Int)) (k : String) : Int :=
  match m.find? (fun kv => kv.1 = k) with
  | some kv => kv.2
  | none => 0

/-- Spreading `{...prev, [k]: v}`: replaces the value in place when `k` is present
(JS objects keep the original insertion position), appends otherwise. -/
def objSet (m : List (String × Int)) (k : String) (v : Int) : List (String × Int) :=
  if m.any (fun kv => kv.1 = k) then
    m.map (fun kv => if kv.1 = k then (k, v) else kv)
  else
    m ++ [(k, v)]

/-- The all-zero pending map built by `createGame`, `finishRound` and `resetGame`:
`forEach(player => { scores[player.id] = 0 })` over the current players. -/
def zeroPending (ps : List Player) : List (String × Int) :=
  ps.map (fun p => (p.id, 0))

/-- State right after `createGame` with the selected players: no rounds,
pending scores initialised to `0` for each player. -/
def initState (ps : List Player) : GameState :=
  ⟨ps, [], zeroPending ps⟩

/-- Web `updateRoundScore(playerId, change)`:
`prev => ({...prev, [playerId]: (prev[playerId] || 0) + change})`. -/
def updateRoundScore (s : GameState) (playerId : String) (change : Int) : GameState :=
  { s with pending := objSet s.pending playerId (objGet s.pending playerId + change) }

/-- Web `finishRound()`: snapshots `Object.entries(currentRoundScores)` into a new
`Round` with `number = rounds.length + 1` and `total` the sum of the entries,
appends it, and resets the pending map to `0` for every current player. -/
def finishRound (s : GameState) : GameState :=
  let roundScores : List RoundScore := s.pending.map (fun kv => ⟨kv.1, kv.2⟩)
  let roundTotal : Int := roundScores.foldl (fun sum rs => sum + rs.score) 0
  let newRound : Round := ⟨s.rounds.length + 1, roundScores, roundTotal⟩
  { s with rounds := s.rounds ++ [newRound], pending := zeroPending s.players }

/-- Web `getPlayerTotalScore(playerId)`: sum over rounds of
`round.scores.find(s => s.playerId === playerId)?.score || 0`. -/
def getPlayerTotalScore (s : GameState) (playerId : String) : Int :=
  s.rounds.foldl
    (fun total round =>
      total +
        match round.scores.find? (fun rs => rs.playerId = playerId) with
        | some rs => rs.score
        | none => 0)
    0

/-- Web `getWinner()`: `null` when no round is committed; otherwise a left-to-right
scan keeping the first strict improvement.  The `highestScore = -Infinity`
seed is embedded as `none` for the accumulator: every integer total exceeds
`-Infinity`, so the first player always becomes the incumbent. -/
def getWinner (s : GameState) : Option Player :=
  if s.rounds.length = 0 then none
  else
    (s.players.foldl
      (fun acc player =>
        let totalScore := getPlayerTotalScore s player.id
        match acc with
        | none => some (player, totalScore)
        | some (w, best) => if totalScore > best then some (player, totalScore) else some (w, best))
      none).map Prod.fst

/-- Web `resetGame()`: empties the round history and resets the pending map to `0`
for every current player; the player list is untouched. -/
def resetGame (s : GameState) : GameState :=
  { s with rounds := [], pending := zeroPending s.players }

/-- Web `addPlayer()`: rejects a name that is blank after
trimming, otherwise appends a player carrying the raw (untrimmed) name.
There is no duplicate check in this variant. -/
def addPlayer (ps : List Player) (newPlayerName : String) (newId : String) : List Player :=
  if jsTrim newPlayerName = "" then ps
  else ps ++ [⟨newId, newPlayerName⟩]

/-- One user action on the active-game screen. -/
inductive Op where
  | adjust (playerId : String) (change : Int)
  | commit
  | reset
  deriving DecidableEq, Repr

/-- Apply one action. -/
def applyOp (s : GameState) : Op → GameState
  | .adjust playerId change => updateRoundScore s playerId change
  | .commit => finishRound s
  | .reset => resetGame s

/-- Apply a sequence of actions left to right. -/
def applyOps (s : GameState) (ops : List Op) : GameState :=
  ops.foldl applyOp s

/-- One entry of the "Total Scores" card: the player together with the
derived `totalScore` field. -/
def standingsBase (s : GameState) : List (Player × Int) :=
  s.players.map (fun p => (p, getPlayerTotalScore s p.id))

/-- Insert into a list sorted by descending second component, after every
strictly greater entry and before the first entry that is `≤` — the position
a stable descending sort gives an element coming after the kept prefix. -/
def insertDesc (x : Player × Int) : List (Player × Int) → List (Player × Int)
  | [] => [x]
  | y :: ys => if y.2 > x.2 then y :: insertDesc x ys else x :: y :: ys

/-- Stable sort by descending second component, embedding
`.sort((a, b) => b.totalScore - a.totalScore)` (JS `Array.prototype.sort`
is stable). -/
def sortDesc : List (Player × Int) → List (Player × Int)
  | [] => []
  | x :: xs => insertDesc x (sortDesc xs)

/-- The "Total Scores" card contents:
`players.map(p => ({...p, totalScore})).sort((a, b) => b.totalScore - a.totalScore)`. -/
def standings (s : GameState) : List (Player × Int) :=
  sortDesc (standingsBase s)

/-- The spec's round invariant: each committed round carries its 1-based
position as `number` and the sum of its own score values as `total`. -/
def roundsInv (s : GameState) : Prop :=
  ∀ i r, s.rounds.get? i = some r →
    r.number = i + 1 ∧ r.total = (r.scores.map RoundScore.score).sum

end Web

namespace Mobile

/-- The `interface Player` of the mobile variant (running-total model). -/
structure Player where
  id : String
  name : String
  score : Int
  deriving DecidableEq, Repr

/-- The two rejections `addPlayer` can raise via `Alert.alert`. -/
inductive AddError where
  | emptyName
  | duplicateName
  deriving DecidableEq, Repr

/-- Mobile `addPlayer()`: rejects a name blank after trimming;
rejects when some existing player's name equals the *raw* input
case-insensitively (the duplicate check lowercases `newPlayerName` without
trimming it); otherwise appends a player carrying the trimmed name and
score `0`. -/
def addPlayer (ps : List Player) (newPlayerName : String) (newId : String) :
    Except AddError (List Player) :=
  if jsTrim newPlayerName = "" then .error .emptyName
  else if ps.any (fun p => jsToLower p.name = jsToLower newPlayerName) then .error .duplicateName
  else .ok (ps ++ [⟨newId, jsTrim newPlayerName, 0⟩])

/-- Mobile `updateScore(playerId, change)`: maps over the players, clamping the
matching player's cumulative score to `max(0, score + change)` and leaving
every other player (and an unknown `playerId`: every player) unchanged. -/
def updateScore (ps : List Player) (playerId : String) (change : Int) : List Player :=
  ps.map (fun player =>
    if player.id = playerId then { player with score := max 0 (player.score + change) }
    else player)

/-- The mobile game-screen state the reset claims are about: the player list
and the round counter. -/
structure MState where
  players : List Player
  round : Nat
  deriving DecidableEq, Repr

/-- The confirmed branch of the mobile `resetGame()`: every player's score
set back to `0` (ids and names kept) and the round counter set to `1`. -/
def resetGame (s : MState) : MState :=
  ⟨s.players.map (fun player => { player with score := 0 }), 1⟩

/-- Mobile `getWinner()`: `null` for an empty player list;
for the `hearts` game type a `reduce` keeping the first strict minimum of
`score`, otherwise a `reduce` keeping the first strict maximum.  A JS
`reduce` without seed starts from the first element. -/
def getWinner (gameTypeId : String) (ps : List Player) : Option Player :=
  match ps with
  | [] => none
  | h :: t =>
    if gameTypeId = "hearts" then
      some (t.foldl (fun m player => if player.score < m.score then player else m) h)
    else
      some (t.foldl (fun m player => if player.score > m.score then player else m) h)

/-- No two players carry case-insensitively equal names (the spec's
uniqueness invariant for `addPlayer`). -/
def namesUniqueCI (ps : List Player) : Prop :=
  ps.Pairwise (fun p q => jsToLower p.name ≠ jsToLower q.name)

end Mobile

/-- The left-to-right "keep the first strict improvement" scan shared by both
winners: fold over `l` starting from incumbent `m`, replacing the incumbent
only when the candidate's key is strictly better. -/
def pickFirst {α : Type} (better : Int → Int → Prop) [DecidableRel better]
    (key : α → Int) (m : α) (l : List α) : α :=
  l.foldl (fun w p => if better (key p) (key w) then p else w) m

/-- Element `w` occurs in `l` strictly after only elements it beats: `l` splits as
`l₁ ++ w :: l₂` with `w` strictly better than everything in `l₁` — i.e. `w`
is the first element of `l` attaining its extremal value. -/
def isFirstWith {α : Type} (strictlyAbove : α → α → Prop) (w : α) (l : List α) : Prop :=
  ∃ l₁ l₂, l = l₁ ++ w :: l₂ ∧ ∀ x ∈ l₁, strictlyAbove w x

/-! ## Helper lemmas -/

theorem foldl_add_score (l : List Web.RoundScore) (a : Int) :
    l.foldl (fun sum rs => sum + rs.score) a = a + (l.map Web.RoundScore.score).sum := by
  induction l generalizing a with
  | nil => simp
  | cons x xs ih => simp only [List.foldl_cons, List.map_cons, List.sum_cons, ih]; ring

theorem players_applyOp (s : Web.GameState) (op : Web.Op) :
    (Web.applyOp s op).players = s.players := by
  cases op <;> rfl

theorem players_applyOps (s : Web.GameState) (ops : List Web.Op) :
    (Web.applyOps s ops).players = s.players := by
  induction ops generalizing s with
  | nil => rfl
  | cons op ops ih =>
    show (Web.applyOps (Web.applyOp s op) ops).players = s.players
    rw [ih, players_applyOp]

theorem resetGame_applyOps (ps : List Web.Player) (ops : List Web.Op) :
    Web.resetGame (Web.applyOps (Web.initState ps) ops) = Web.initState ps := by
  have h := players_applyOps (Web.initState ps) ops
  simp only [Web.initState] at h
  simp [Web.resetGame, Web.initState, h]

/-! ## C8: reset clears rounds and pending scores, preserves players -/

/-- C8: `resetGame` (both variants) clears the committed-round history and
resets the pending scores to zero for every current player while leaving the
player sequence (ids, names, order) unchanged; the next round number is `1`
(web: `rounds.length + 1`; mobile: the counter is set to `1`). -/
theorem resetGame_clears_rounds_keeps_players :
    (∀ s : Web.GameState,
      Web.resetGame s = ⟨s.players, [], Web.zeroPending s.players⟩ ∧
      (Web.resetGame s).rounds.length + 1 = 1) ∧
    (∀ s : Mobile.MState,
      Mobile.resetGame s = ⟨s.players.map (fun p => ⟨p.id, p.name, 0⟩), 1⟩) := by
  refine ⟨fun s => ⟨rfl, rfl⟩, fun s => ?_⟩
  simp [Mobile.resetGame]

/-! ## C9: reset followed by replaying the same actions reproduces the state -/

/-- C9: for every action sequence `ops` driving a fresh game to a state `s₁`,
resetting and replaying `ops` reaches a state with the same `totalScore` for
every player id, and the player sequence stays equal to the initial players
after any action sequence. -/
theorem reset_replay_roundtrip (ps : List Web.Player) (ops : List Web.Op) :
    (∀ playerId,
      Web.getPlayerTotalScore
        (Web.applyOps (Web.resetGame (Web.applyOps (Web.initState ps) ops)) ops) playerId =
      Web.getPlayerTotalScore (Web.applyOps (Web.initState ps) ops) playerId) ∧
    (∀ ops' : List Web.Op, (Web.applyOps (Web.initState ps) ops').players = ps) := by
  constructor
  · intro playerId
    rw [resetGame_applyOps]
  · intro ops'
    rw [players_applyOps]
    rfl

/-! ## C10: mobile updateScore silently ignores unknown player ids -/

/-- C10: when `playerId` matches no player in the list, the mobile
`updateScore` leaves the entire player list unchanged (no entry is created,
no error is raised — the operation is total). -/
theorem updateScore_unknown_id_noop (ps : List Mobile.Player) (playerId : String)
    (change : Int) (h : playerId ∉ ps.map Mobile.Player.id) :
    Mobile.updateScore ps playerId change = ps := by
  unfold Mobile.updateScore
  rw [List.map_congr_left, List.map_id]
  intro p hp
  have : p.id ≠ playerId := by
    intro hid
    exact h (hid ▸ List.mem_map_of_mem Mobile.Player.id hp)
  simp [this]

/-- Witness for C10 at a concrete input. -/
theorem updateScore_unknown_id_noop_witness :
    Mobile.updateScore [⟨"1", "Alicia", 2⟩] "9" 5 = [⟨"1", "Alicia", 2⟩] :=
  updateScore_unknown_id_noop [⟨"1", "Alicia", 2⟩] "9" 5 (by decide)

/-! ## C4: mobile updateScore clamps the cumulative score at zero -/

/-- C4: for an existing player (position `i` of the list), the mobile
`updateScore` applied to that player's id replaces its cumulative score by
`max 0 (oldScore + change)`, keeping id and name. -/
theorem updateScore_clamps_to_zero (ps : List Mobile.Player) (i : Nat)
    (hi : i < ps.length) (change : Int) :
    (Mobile.updateScore ps (ps.get ⟨i, hi⟩).id change).get? i =
      some ⟨(ps.get ⟨i, hi⟩).id, (ps.get ⟨i, hi⟩).name,
            max 0 ((ps.get ⟨i, hi⟩).score + change)⟩ := by
  unfold Mobile.updateScore
  rw [List.get?_eq_getElem?, List.getElem?_map, List.getElem?_eq_getElem hi]
  simp [List.get_eq_getElem]

/-- Witness for C4: a player at cumulative score `0` adjusted by `-1` stays
at `0`, not `-1`. -/
theorem updateScore_clamps_to_zero_witness :
    (Mobile.updateScore [⟨"1", "Alicia", 0⟩] "1" (-1)).get? 0 = some ⟨"1", "Alicia", 0⟩ := by
  have h := updateScore_clamps_to_zero [⟨"1", "Alicia", 0⟩] 0 (by decide) (-1)
  simpa using h

/-! ## C2: winner with zero committed rounds -/

/-- C2 counterexample: the mobile variant never commits any round (it has no
round history at all), yet with a non-zero cumulative score present its
`getWinner` returns a player rather than `None`. -/
theorem mobile_winner_without_rounds_cex :
    Mobile.getWinner "hearts" [⟨"1", "Alicia", 0⟩, ⟨"2", "Bruno", 3⟩] =
      some ⟨"1", "Alicia", 0⟩ ∧
    (⟨"2", "Bruno", 3⟩ : Mobile.Player).score ≠ 0 := by
  constructor
  · rfl
  · decide

/-- C2 (amended): in the web variant `getWinner` returns `none` whenever zero
rounds are committed, regardless of the pending scores; the mobile variant's
`getWinner` ignores rounds entirely and returns a player whenever the player
list is non-empty. -/
theorem winner_none_without_rounds :
    (∀ s : Web.GameState, s.rounds = [] → Web.getWinner s = none) ∧
    (∀ (gameTypeId : String) (ps : List Mobile.Player), ps ≠ [] →
      (Mobile.getWinner gameTypeId ps).isSome = true) := by
  constructor
  · intro s h
    simp [Web.getWinner, h]
  · intro gameTypeId ps h
    cases ps with
    | nil => exact absurd rfl h
    | cons p t =>
      simp only [Mobile.getWinner]
      split <;> rfl

/-- Witness for the amended C2 at concrete inputs. -/
theorem winner_none_without_rounds_witness :
    Web.getWinner ⟨[⟨"1", "Alicia"⟩], [], [("1", 7)]⟩ = none ∧
    (Mobile.getWinner "spades" [⟨"1", "Alicia", 0⟩]).isSome = true :=
  ⟨winner_none_without_rounds.1 ⟨[⟨"1", "Alicia"⟩], [], [("1", 7)]⟩ rfl,
   winner_none_without_rounds.2 "spades" [⟨"1", "Alicia", 0⟩] (by decide)⟩

/-! ## C1: finishRound commits the pending map as a well-formed round -/

theorem roundsInv_initState (ps : List Web.Player) : Web.roundsInv (Web.initState ps) := by
  intro i r hr
  simp [Web.initState] at hr

theorem roundsInv_applyOp (s : Web.GameState) (op : Web.Op) (h : Web.roundsInv s) :
    Web.roundsInv (Web.applyOp s op) := by
  cases op with
  | adjust playerId change => exact h
  | reset =>
    intro i r hr
    simp [Web.applyOp, Web.resetGame] at hr
  | commit =>
    intro i r hr
    simp only [Web.applyOp, Web.finishRound] at hr
    rcases Nat.lt_or_ge i s.rounds.length with hi | hi
    · rw [List.get?_append hi] at hr
      exact h i r hr
    · rw [List.get?_append_right hi] at hr
      rcases hn : i - s.rounds.length with _ | j
      · have hieq : i = s.rounds.length := by omega
        rw [hn] at hr
        simp only [List.get?] at hr
        cases hr
        constructor
        · show s.rounds.length + 1 = i + 1
          omega
        · show (s.pending.map fun kv => (⟨kv.1, kv.2⟩ : Web.RoundScore)).foldl
              (fun sum rs => sum + rs.score) 0 =
            ((s.pending.map fun kv => (⟨kv.1, kv.2⟩ : Web.RoundScore)).map
              Web.RoundScore.score).sum
          rw [foldl_add_score, zero_add]
      · rw [hn] at hr
        simp [List.get?] at hr

theorem roundsInv_applyOps (s : Web.GameState) (ops : List Web.Op) (h : Web.roundsInv s) :
    Web.roundsInv (Web.applyOps s ops) := by
  induction ops generalizing s with
  | nil => exact h
  | cons op ops ih =>
    show Web.roundsInv (Web.applyOps (Web.applyOp s op) ops)
    exact ih _ (roundsInv_applyOp s op h)

/-- C1: `finishRound` appends exactly one new round whose number is the count
of previously committed rounds plus one and whose total is the sum of the
pending score values, resets the pending map to zero for every current
player, and keeps the players; consequently every reachable state satisfies
the round invariant: each committed round's `total` is the sum of its own
score values and its `number` is its 1-based position in commit order. -/
theorem finishRound_commits_round :
    (∀ s : Web.GameState,
      (Web.finishRound s).rounds =
        s.rounds ++ [⟨s.rounds.length + 1, s.pending.map (fun kv => ⟨kv.1, kv.2⟩),
                      (s.pending.map Prod.snd).sum⟩] ∧
      (Web.finishRound s).pending = Web.zeroPending s.players ∧
      (Web.finishRound s).players = s.players) ∧
    (∀ (ps : List Web.Player) (ops : List Web.Op),
      Web.roundsInv (Web.applyOps (Web.initState ps) ops)) := by
  constructor
  · intro s
    refine ⟨?_, rfl, rfl⟩
    simp only [Web.finishRound]
    rw [foldl_add_score, zero_add, List.map_map]
    rfl
  · intro ps ops
    exact roundsInv_applyOps _ ops (roundsInv_initState ps)

/-- Witness for C1 on a concrete play: one player, one `+5` adjustment, one
commit; the committed round has number `1` and total `5`. -/
theorem finishRound_commits_round_witness :
    (⟨1, [⟨"1", 5⟩], 5⟩ : Web.Round).number = 0 + 1 ∧
    (⟨1, [⟨"1", 5⟩], 5⟩ : Web.Round).total =
      (([⟨"1", 5⟩] : List Web.RoundScore).map Web.RoundScore.score).sum :=
  finishRound_commits_round.2 [⟨"1", "Alicia"⟩] [.adjust "1" 5, .commit] 0
    ⟨1, [⟨"1", 5⟩], 5⟩ (by rfl)

/-! ## C6: updateRoundScore on the pending map -/

theorem objGet_cons_pos (kv : String × Int) (r : List (String × Int)) (k : String)
    (h : kv.1 = k) : Web.objGet (kv :: r) k = kv.2 := by
  unfold Web.objGet
  rw [List.find?_cons_of_pos _ (by simp [h])]

theorem objGet_cons_neg (kv : String × Int) (r : List (String × Int)) (k : String)
    (h : ¬ kv.1 = k) : Web.objGet (kv :: r) k = Web.objGet r k := by
  unfold Web.objGet
  rw [List.find?_cons_of_neg _ (by simp [h])]

theorem objGet_mapSet_self (k : String) (v : Int) :
    ∀ m : List (String × Int), m.any (fun kv => kv.1 = k) = true →
      Web.objGet (m.map (fun kv => if kv.1 = k then (k, v) else kv)) k = v := by
  intro m
  induction m with
  | nil => intro h; simp at h
  | cons kv rest ih =>
    intro h
    simp only [List.map_cons]
    by_cases hk : kv.1 = k
    · rw [if_pos hk, objGet_cons_pos _ _ _ rfl]
    · have hr : rest.any (fun kv => kv.1 = k) = true := by
        simpa [List.any_cons, hk] using h
      rw [if_neg hk, objGet_cons_neg _ _ _ hk]
      exact ih hr

theorem objGet_mapSet_other (k k' : String) (v : Int) (hne : k' ≠ k) :
    ∀ m : List (String × Int),
      Web.objGet (m.map (fun kv => if kv.1 = k then (k, v) else kv)) k' = Web.objGet m k' := by
  intro m
  induction m with
  | nil => rfl
  | cons kv rest ih =>
    simp only [List.map_cons]
    by_cases hk : kv.1 = k
    · have hk' : ¬ kv.1 = k' := by rw [hk]; exact Ne.symm hne
      rw [if_pos hk, objGet_cons_neg _ _ _ (fun h => hne (h.symm)),
        objGet_cons_neg _ _ _ hk']
      exact ih
    · by_cases hk' : kv.1 = k'
      · rw [if_neg hk, objGet_cons_pos _ _ _ hk', objGet_cons_pos _ _ _ hk']
      · rw [if_neg hk, objGet_cons_neg _ _ _ hk', objGet_cons_neg _ _ _ hk']
        exact ih

theorem objGet_append_self (k : String) (v : Int) (m : List (String × Int))
    (h : m.any (fun kv => kv.1 = k) = false) :
    Web.objGet (m ++ [(k, v)]) k = v := by
  induction m with
  | nil => exact objGet_cons_pos _ _ _ rfl
  | cons kv rest ih =>
    simp only [List.any_cons, Bool.or_eq_false_iff] at h
    have hk : ¬ kv.1 = k := by simpa using h.1
    rw [List.cons_append, objGet_cons_neg _ _ _ hk]
    exact ih h.2

theorem objGet_append_other (k k' : String) (v : Int) (hne : k' ≠ k)
    (m : List (String × Int)) :
    Web.objGet (m ++ [(k, v)]) k' = Web.objGet m k' := by
  induction m with
  | nil =>
    rw [List.nil_append, objGet_cons_neg _ _ _ (fun h => hne (h.symm))]
  | cons kv rest ih =>
    by_cases hk' : kv.1 = k'
    · rw [List.cons_append, objGet_cons_pos _ _ _ hk', objGet_cons_pos _ _ _ hk']
    · rw [List.cons_append, objGet_cons_neg _ _ _ hk', objGet_cons_neg _ _ _ hk']
      exact ih

theorem objGet_objSet_self (m : List (String × Int)) (k : String) (v : Int) :
    Web.objGet (Web.objSet m k v) k = v := by
  unfold Web.objSet
  split
  case isTrue h => exact objGet_mapSet_self k v m h
  case isFalse h => exact objGet_append_self k v m ((Bool.not_eq_true _) ▸ h)

theorem objGet_objSet_other (m : List (String × Int)) (k k' : String) (v : Int)
    (hne : k' ≠ k) :
    Web.objGet (Web.objSet m k v) k' = Web.objGet m k' := by
  unfold Web.objSet
  split
  case isTrue h => exact objGet_mapSet_other k k' v hne m
  case isFalse h => exact objGet_append_other k k' v hne m

/-- C6 counterexample: `updateRoundScore` applied to an id that denotes no
existing player does not fail — it creates a fresh pending entry holding the
delta. -/
theorem updateRoundScore_unknown_id_cex :
    Web.updateRoundScore ⟨[⟨"1", "Alicia"⟩], [], [("1", 0)]⟩ "9" 5 =
      ⟨[⟨"1", "Alicia"⟩], [], [("1", 0), ("9", 5)]⟩ ∧
    "9" ∉ [(⟨"1", "Alicia"⟩ : Web.Player)].map Web.Player.id := by
  constructor
  · rfl
  · decide

/-- C6 (amended): `updateRoundScore` never fails: for any `playerId`, known
or not, it replaces the pending entry for that id by its old value
(`0` when absent, creating the entry) plus the delta, and leaves every other
pending entry, the player list and the round history unchanged. -/
theorem updateRoundScore_adds_delta (s : Web.GameState) (playerId : String) (change : Int) :
    Web.objGet (Web.updateRoundScore s playerId change).pending playerId =
      Web.objGet s.pending playerId + change ∧
    (∀ k, k ≠ playerId →
      Web.objGet (Web.updateRoundScore s playerId change).pending k =
        Web.objGet s.pending k) ∧
    (Web.updateRoundScore s playerId change).players = s.players ∧
    (Web.updateRoundScore s playerId change).rounds = s.rounds := by
  refine ⟨?_, ?_, rfl, rfl⟩
  · exact objGet_objSet_self s.pending playerId _
  · intro k hk
    exact objGet_objSet_other s.pending playerId k _ hk

/-- Witness for the amended C6 at a concrete input: pending `{"1": 2}`,
adjusting player `"1"` by `3` yields `5`, and key `"7"` stays absent. -/
theorem updateRoundScore_adds_delta_witness :
    Web.objGet (Web.updateRoundScore ⟨[⟨"1", "Alicia"⟩], [], [("1", 2)]⟩ "1" 3).pending "1" =
      Web.objGet [("1", 2)] "1" + 3 ∧
    Web.objGet (Web.updateRoundScore ⟨[⟨"1", "Alicia"⟩], [], [("1", 2)]⟩ "1" 3).pending "7" =
      Web.objGet [("1", 2)] "7" :=
  ⟨(updateRoundScore_adds_delta ⟨[⟨"1", "Alicia"⟩], [], [("1", 2)]⟩ "1" 3).1,
   (updateRoundScore_adds_delta ⟨[⟨"1", "Alicia"⟩], [], [("1", 2)]⟩ "1" 3).2.1 "7" (by decide)⟩

/-! ## C5: addPlayer validation -/

/-- C5 counterexample: the mobile duplicate check lowercases the raw input
without trimming it while the stored name is trimmed, so adding `"alice"`
and then `" alice "` succeeds twice and produces two players with
case-insensitively equal names. -/
theorem addPlayer_duplicate_names_cex :
    Mobile.addPlayer [] "alice" "1" = Except.ok [⟨"1", "alice", 0⟩] ∧
    Mobile.addPlayer [⟨"1", "alice", 0⟩] " alice " "2" =
      Except.ok [⟨"1", "alice", 0⟩, ⟨"2", "alice", 0⟩] ∧
    ¬ Mobile.namesUniqueCI [⟨"1", "alice", 0⟩, ⟨"2", "alice", 0⟩] := by
  refine ⟨rfl, rfl, ?_⟩
  intro h
  have h1 := List.rel_of_pairwise_cons h (List.mem_singleton.mpr rfl)
  exact h1 rfl

/-- C5 (amended): the mobile `addPlayer` fails with `EmptyName` when the name
is blank after trimming, fails with `DuplicateName` when an existing player's
name equals the *raw untrimmed* input case-insensitively, and otherwise
appends a player bearing the trimmed name with score `0`; the web `addPlayer`
only rejects names blank after trimming and appends the *untrimmed* name with
no duplicate check at all.  (The claimed no-duplicates invariant fails: the
mobile trim/no-trim mismatch and the absent web check both break it.) -/
theorem addPlayer_behavior :
    (∀ (ps : List Mobile.Player) (nm newId : String),
      (jsTrim nm = "" → Mobile.addPlayer ps nm newId = .error .emptyName) ∧
      (jsTrim nm ≠ "" → (∃ p ∈ ps, jsToLower p.name = jsToLower nm) →
        Mobile.addPlayer ps nm newId = .error .duplicateName) ∧
      (jsTrim nm ≠ "" → (∀ p ∈ ps, jsToLower p.name ≠ jsToLower nm) →
        Mobile.addPlayer ps nm newId = .ok (ps ++ [⟨newId, jsTrim nm, 0⟩]))) ∧
    (∀ (ps : List Web.Player) (nm newId : String),
      (jsTrim nm = "" → Web.addPlayer ps nm newId = ps) ∧
      (jsTrim nm ≠ "" → Web.addPlayer ps nm newId = ps ++ [⟨newId, nm⟩])) := by
  constructor
  · intro ps nm newId
    refine ⟨fun h => ?_, fun h hdup => ?_, fun h hnone => ?_⟩
    · simp [Mobile.addPlayer, h]
    · have hany : ps.any (fun p => jsToLower p.name = jsToLower nm) = true := by
        rcases hdup with ⟨p, hp, hpe⟩
        exact List.any_eq_true.mpr ⟨p, hp, by simpa using hpe⟩
      simp [Mobile.addPlayer, h, hany]
    · have hany : ps.any (fun p => jsToLower p.name = jsToLower nm) = false := by
        rw [List.any_eq_false]
        intro p hp
        simpa using hnone p hp
      simp [Mobile.addPlayer, h, hany]
  · intro ps nm newId
    exact ⟨fun h => by simp [Web.addPlayer, h], fun h => by simp [Web.addPlayer, h]⟩

/-- Witness for the amended C5 on concrete inputs: each branch of both
variants exercised. -/
theorem addPlayer_behavior_witness :
    Mobile.addPlayer [] "  " "1" = .error .emptyName ∧
    Mobile.addPlayer [⟨"1", "Gail", 0⟩] "GAIL" "2" = .error .duplicateName ∧
    Mobile.addPlayer [] " Zoe " "3" = .ok [⟨"3", "Zoe", 0⟩] ∧
    Web.addPlayer [] " " "4" = [] ∧
    Web.addPlayer [] " Zoe " "5" = [⟨"5", " Zoe "⟩] :=
  ⟨(addPlayer_behavior.1 [] "  " "1").1 (by decide),
   (addPlayer_behavior.1 [⟨"1", "Gail", 0⟩] "GAIL" "2").2.1 (by decide)
     ⟨⟨"1", "Gail", 0⟩, by simp, by decide⟩,
   (addPlayer_behavior.1 [] " Zoe " "3").2.2 (by decide) (by simp),
   (addPlayer_behavior.2 [] " " "4").1 (by decide),
   (addPlayer_behavior.2 [] " Zoe " "5").2 (by decide)⟩

/-! ## C3: the winner scan picks the first extremal player -/

theorem pickFirst_cons_pos {α : Type} (better : Int → Int → Prop) [DecidableRel better]
    (key : α → Int) (m p : α) (t : List α) (hb : better (key p) (key m)) :
    pickFirst better key m (p :: t) = pickFirst better key p t := by
  simp [pickFirst, List.foldl_cons, if_pos hb]

theorem pickFirst_cons_neg {α : Type} (better : Int → Int → Prop) [DecidableRel better]
    (key : α → Int) (m p : α) (t : List α) (hb : ¬ better (key p) (key m)) :
    pickFirst better key m (p :: t) = pickFirst better key m t := by
  simp [pickFirst, List.foldl_cons, if_neg hb]

theorem pickFirst_spec {α : Type} (better : Int → Int → Prop) [DecidableRel better]
    (hasym : ∀ a b, better a b → ¬ better b a)
    (htrans : ∀ a b c, better a b → better b c → better a c)
    (htrans2 : ∀ a b c, better a b → ¬ better c b → better a c)
    (key : α → Int) :
    ∀ (l : List α) (m : α),
      (∀ x ∈ m :: l, ¬ better (key x) (key (pickFirst better key m l))) ∧
      isFirstWith (fun a b => better (key a) (key b)) (pickFirst better key m l) (m :: l) := by
  intro l
  induction l with
  | nil =>
    intro m
    constructor
    · intro x hx
      rw [List.mem_singleton] at hx
      subst hx
      exact fun hb => hasym _ _ hb hb
    · exact ⟨[], [], rfl, by simp⟩
  | cons p t ih =>
    intro m
    by_cases hb : better (key p) (key m)
    · obtain ⟨hbound, l₁, l₂, heq, hstrict⟩ := ih p
      rw [pickFirst_cons_pos better key m p t hb]
      have hwm : better (key (pickFirst better key p t)) (key m) := by
        cases l₁ with
        | nil =>
          have h1 : p = pickFirst better key p t := (List.cons.injEq _ _ _ _ ▸ heq).1
          exact h1 ▸ hb
        | cons a l₁' =>
          have h1 : p = a := (List.cons.injEq _ _ _ _ ▸ heq).1
          exact htrans _ _ _ (hstrict a (List.mem_cons_self a l₁')) (h1 ▸ hb)
      constructor
      · intro x hx
        rcases List.mem_cons.mp hx with hx | hx
        · subst hx
          exact hasym _ _ hwm
        · exact hbound x hx
      · refine ⟨m :: l₁, l₂, ?_, ?_⟩
        · rw [List.cons_append, ← heq]
        · intro x hx
          rcases List.mem_cons.mp hx with hx | hx
          · subst hx
            exact hwm
          · exact hstrict x hx
    · obtain ⟨hbound, l₁, l₂, heq, hstrict⟩ := ih m
      rw [pickFirst_cons_neg better key m p t hb]
      have hwp : ¬ better (key p) (key (pickFirst better key m t)) := by
        cases l₁ with
        | nil =>
          have h1 : m = pickFirst better key m t := (List.cons.injEq _ _ _ _ ▸ heq).1
          exact h1 ▸ hb
        | cons a l₁' =>
          have h1 : m = a := (List.cons.injEq _ _ _ _ ▸ heq).1
          have hwm : better (key (pickFirst better key m t)) (key m) :=
            h1 ▸ hstrict a (List.mem_cons_self a l₁')
          exact hasym _ _ (htrans2 _ _ _ hwm hb)
      constructor
      · intro x hx
        rcases List.mem_cons.mp hx with hx | hx
        · rw [hx]
          exact hbound m (List.mem_cons_self m t)
        · rcases List.mem_cons.mp hx with hx | hx
          · subst hx
            exact hwp
          · exact hbound x (List.mem_cons_of_mem m hx)
      · cases l₁ with
        | nil =>
          have h1 : m = pickFirst better key m t := (List.cons.injEq _ _ _ _ ▸ heq).1
          exact ⟨[], p :: t, by rw [List.nil_append, ← h1], by simp⟩
        | cons a l₁' =>
          have h1 : m = a := (List.cons.injEq _ _ _ _ ▸ heq).1
          have h2 : t = l₁' ++ pickFirst better key m t :: l₂ :=
            (List.cons.injEq _ _ _ _ ▸ heq).2
          have hwm : better (key (pickFirst better key m t)) (key m) :=
            h1 ▸ hstrict a (List.mem_cons_self a l₁')
          refine ⟨m :: p :: l₁', l₂, ?_, ?_⟩
          · rw [List.cons_append, List.cons_append, ← h2]
          · intro x hx
            rcases List.mem_cons.mp hx with hx | hx
            · subst hx
              exact hwm
            · rcases List.mem_cons.mp hx with hx | hx
              · subst hx
                exact htrans2 _ _ _ hwm hb
              · exact hstrict x (h1 ▸ List.mem_cons_of_mem a hx)

set_option maxHeartbeats 1000000 in
theorem web_scan_aux (s : Web.GameState) :
    ∀ (t : List Web.Player) (w : Web.Player),
      t.foldl
        (fun acc player =>
          let totalScore := Web.getPlayerTotalScore s player.id
          match acc with
          | none => some (player, totalScore)
          | some (w, best) =>
            if totalScore > best then some (player, totalScore) else some (w, best))
        (some (w, Web.getPlayerTotalScore s w.id)) =
      some (pickFirst (fun a b : Int => a > b) (fun p => Web.getPlayerTotalScore s p.id) w t,
        Web.getPlayerTotalScore s
          (pickFirst (fun a b : Int => a > b)
            (fun p => Web.getPlayerTotalScore s p.id) w t).id) := by
  intro t
  induction t with
  | nil =>
    intro w
    simp [pickFirst]
  | cons p t ih =>
    intro w
    rw [List.foldl_cons]
    show List.foldl _
        (if Web.getPlayerTotalScore s p.id > Web.getPlayerTotalScore s w.id
         then some (p, Web.getPlayerTotalScore s p.id)
         else some (w, Web.getPlayerTotalScore s w.id)) t = _
    by_cases hb : Web.getPlayerTotalScore s p.id > Web.getPlayerTotalScore s w.id
    · rw [if_pos hb, ih p, pickFirst_cons_pos (fun a b : Int => a > b)
        (fun q => Web.getPlayerTotalScore s q.id) w p t hb]
    · rw [if_neg hb, ih w, pickFirst_cons_neg (fun a b : Int => a > b)
        (fun q => Web.getPlayerTotalScore s q.id) w p t hb]

theorem getWinner_eq_pick (s : Web.GameState) (hr : ¬ s.rounds.length = 0)
    (h : Web.Player) (t : List Web.Player) (hp : s.players = h :: t) :
    Web.getWinner s =
      some (pickFirst (fun a b : Int => a > b)
        (fun p => Web.getPlayerTotalScore s p.id) h t) := by
  unfold Web.getWinner
  rw [if_neg hr, hp, List.foldl_cons]
  show Option.map Prod.fst
      (List.foldl _ (some (h, Web.getPlayerTotalScore s h.id)) t) = _
  rw [web_scan_aux s t h]
  rfl

theorem mobile_hearts_eq_pick (h : Mobile.Player) (t : List Mobile.Player) :
    Mobile.getWinner "hearts" (h :: t) =
      some (pickFirst (fun a b : Int => a < b) Mobile.Player.score h t) := rfl

theorem mobile_other_eq_pick (gameTypeId : String) (hgt : ¬ gameTypeId = "hearts")
    (h : Mobile.Player) (t : List Mobile.Player) :
    Mobile.getWinner gameTypeId (h :: t) =
      some (pickFirst (fun a b : Int => a > b) Mobile.Player.score h t) := by
  unfold Mobile.getWinner
  show (if gameTypeId = "hearts"
        then some (t.foldl (fun m player => if player.score < m.score then player else m) h)
        else some (t.foldl (fun m player => if player.score > m.score then player else m) h)) = _
  rw [if_neg hgt]
  rfl

/-- C3: with at least one committed round and a non-empty player list, the
web `getWinner` returns the `pickFirst`-scanned player, whose total is
maximal among all players and who is the first player in insertion order
attaining that maximum (everyone before it is strictly below); the mobile
`getWinner` does the same over cumulative scores, minimising for the
`hearts` game type and maximising for every other game type, again keeping
the first extremal player on ties. -/
theorem winner_first_extremal :
    (∀ (s : Web.GameState) (h : Web.Player) (t : List Web.Player),
      s.rounds ≠ [] → s.players = h :: t →
      Web.getWinner s = some (pickFirst (fun a b : Int => a > b)
          (fun p => Web.getPlayerTotalScore s p.id) h t) ∧
      (∀ x ∈ s.players, Web.getPlayerTotalScore s x.id ≤
        Web.getPlayerTotalScore s (pickFirst (fun a b : Int => a > b)
          (fun p => Web.getPlayerTotalScore s p.id) h t).id) ∧
      isFirstWith
        (fun a b => Web.getPlayerTotalScore s a.id > Web.getPlayerTotalScore s b.id)
        (pickFirst (fun a b : Int => a > b) (fun p => Web.getPlayerTotalScore s p.id) h t)
        s.players) ∧
    (∀ (h : Mobile.Player) (t : List Mobile.Player),
      Mobile.getWinner "hearts" (h :: t) =
        some (pickFirst (fun a b : Int => a < b) Mobile.Player.score h t) ∧
      (∀ x ∈ h :: t,
        (pickFirst (fun a b : Int => a < b) Mobile.Player.score h t).score ≤ x.score) ∧
      isFirstWith (fun a b => a.score < b.score)
        (pickFirst (fun a b : Int => a < b) Mobile.Player.score h t) (h :: t)) ∧
    (∀ gameTypeId : String, gameTypeId ≠ "hearts" →
      ∀ (h : Mobile.Player) (t : List Mobile.Player),
      Mobile.getWinner gameTypeId (h :: t) =
        some (pickFirst (fun a b : Int => a > b) Mobile.Player.score h t) ∧
      (∀ x ∈ h :: t,
        x.score ≤ (pickFirst (fun a b : Int => a > b) Mobile.Player.score h t).score) ∧
      isFirstWith (fun a b => a.score > b.score)
        (pickFirst (fun a b : Int => a > b) Mobile.Player.score h t) (h :: t)) := by
  refine ⟨?_, ?_, ?_⟩
  · intro s h t hr hp
    have hlen : ¬ s.rounds.length = 0 := fun h0 => hr (List.length_eq_zero.mp h0)
    obtain ⟨hbound, hfirst⟩ := pickFirst_spec (fun a b : Int => a > b)
      (fun a b hab => by omega) (fun a b c hab hbc => by omega)
      (fun a b c hab hcb => by omega)
      (fun p : Web.Player => Web.getPlayerTotalScore s p.id) t h
    refine ⟨getWinner_eq_pick s hlen h t hp, ?_, ?_⟩
    · intro x hx
      rw [hp] at hx
      have hb := hbound x hx
      rw [gt_iff_lt] at hb
      exact not_lt.mp hb
    · rw [hp]
      exact hfirst
  · intro h t
    obtain ⟨hbound, hfirst⟩ := pickFirst_spec (fun a b : Int => a < b)
      (fun a b hab => by omega) (fun a b c hab hbc => by omega)
      (fun a b c hab hcb => by omega) Mobile.Player.score t h
    refine ⟨mobile_hearts_eq_pick h t, ?_, hfirst⟩
    intro x hx
    exact not_lt.mp (hbound x hx)
  · intro gameTypeId hgt h t
    obtain ⟨hbound, hfirst⟩ := pickFirst_spec (fun a b : Int => a > b)
      (fun a b hab => by omega) (fun a b c hab hbc => by omega)
      (fun a b c hab hcb => by omega) Mobile.Player.score t h
    refine ⟨mobile_other_eq_pick gameTypeId hgt h t, ?_, hfirst⟩
    intro x hx
    have hb := hbound x hx
    rw [gt_iff_lt] at hb
    exact not_lt.mp hb

/-- Witness for C3 on the spec's tie-break scenario: Ann, Bea, Cyd with
totals 10, 8, 10 — the winner is Ann, the first player reaching the maximum;
and a mobile `spades` game where the higher score wins. -/
theorem winner_first_extremal_witness :
    Web.getWinner ⟨[⟨"1", "Ann"⟩, ⟨"2", "Bea"⟩, ⟨"3", "Cyd"⟩],
        [⟨1, [⟨"1", 10⟩, ⟨"2", 8⟩, ⟨"3", 10⟩], 28⟩], [("1", 0), ("2", 0), ("3", 0)]⟩ =
      some (pickFirst (fun a b : Int => a > b)
        (fun p : Web.Player => Web.getPlayerTotalScore
          ⟨[⟨"1", "Ann"⟩, ⟨"2", "Bea"⟩, ⟨"3", "Cyd"⟩],
           [⟨1, [⟨"1", 10⟩, ⟨"2", 8⟩, ⟨"3", 10⟩], 28⟩], [("1", 0), ("2", 0), ("3", 0)]⟩ p.id)
        ⟨"1", "Ann"⟩ [⟨"2", "Bea"⟩, ⟨"3", "Cyd"⟩]) ∧
    pickFirst (fun a b : Int => a > b)
        (fun p : Web.Player => Web.getPlayerTotalScore
          ⟨[⟨"1", "Ann"⟩, ⟨"2", "Bea"⟩, ⟨"3", "Cyd"⟩],
           [⟨1, [⟨"1", 10⟩, ⟨"2", 8⟩, ⟨"3", 10⟩], 28⟩], [("1", 0), ("2", 0), ("3", 0)]⟩ p.id)
        ⟨"1", "Ann"⟩ [⟨"2", "Bea"⟩, ⟨"3", "Cyd"⟩] = ⟨"1", "Ann"⟩ ∧
    Mobile.getWinner "spades" [⟨"1", "Alicia", 0⟩, ⟨"2", "Bruno", 3⟩] =
      some (pickFirst (fun a b : Int => a > b) Mobile.Player.score
        ⟨"1", "Alicia", 0⟩ [⟨"2", "Bruno", 3⟩]) ∧
    pickFirst (fun a b : Int => a > b) Mobile.Player.score
        ⟨"1", "Alicia", 0⟩ [⟨"2", "Bruno", 3⟩] = ⟨"2", "Bruno", 3⟩ :=
  ⟨(winner_first_extremal.1
      ⟨[⟨"1", "Ann"⟩, ⟨"2", "Bea"⟩, ⟨"3", "Cyd"⟩],
       [⟨1, [⟨"1", 10⟩, ⟨"2", 8⟩, ⟨"3", 10⟩], 28⟩], [("1", 0), ("2", 0), ("3", 0)]⟩
      ⟨"1", "Ann"⟩ [⟨"2", "Bea"⟩, ⟨"3", "Cyd"⟩] (by decide) rfl).1,
   by decide,
   (winner_first_extremal.2.2 "spades" (by decide)
      ⟨"1", "Alicia", 0⟩ [⟨"2", "Bruno", 3⟩]).1,
   by decide⟩

/-! ## C7: standings are sorted by descending total with stable ties -/

theorem insertDesc_perm (x : Web.Player × Int) (l : List (Web.Player × Int)) :
    List.Perm (Web.insertDesc x l) (x :: l) := by
  induction l with
  | nil => exact List.Perm.refl _
  | cons y ys ih =>
    unfold Web.insertDesc
    split
    · exact (ih.cons y).trans (List.Perm.swap x y ys)
    · exact List.Perm.refl _

theorem sortDesc_perm (l : List (Web.Player × Int)) :
    List.Perm (Web.sortDesc l) l := by
  induction l with
  | nil => exact List.Perm.refl _
  | cons x xs ih => exact (insertDesc_perm x (Web.sortDesc xs)).trans (ih.cons x)

theorem insertDesc_pairwise (x : Web.Player × Int) (l : List (Web.Player × Int))
    (h : l.Pairwise (fun a b => b.2 ≤ a.2)) :
    (Web.insertDesc x l).Pairwise (fun a b => b.2 ≤ a.2) := by
  induction l with
  | nil => simp [Web.insertDesc]
  | cons y ys ih =>
    rw [List.pairwise_cons] at h
    obtain ⟨hy, hys⟩ := h
    unfold Web.insertDesc
    split
    case isTrue hgt =>
      rw [List.pairwise_cons]
      constructor
      · intro z hz
        have hz' : z ∈ x :: ys := (insertDesc_perm x ys).mem_iff.mp hz
        rcases List.mem_cons.mp hz' with rfl | hz''
        · omega
        · exact hy z hz''
      · exact ih hys
    case isFalse hle =>
      rw [List.pairwise_cons]
      constructor
      · intro z hz
        rcases List.mem_cons.mp hz with rfl | hz'
        · omega
        · exact le_trans (hy z hz') (by omega)
      · exact List.pairwise_cons.mpr ⟨hy, hys⟩

theorem sortDesc_pairwise (l : List (Web.Player × Int)) :
    (Web.sortDesc l).Pairwise (fun a b => b.2 ≤ a.2) := by
  induction l with
  | nil => exact List.Pairwise.nil
  | cons x xs ih => exact insertDesc_pairwise x (Web.sortDesc xs) ih

theorem insertDesc_filter (x : Web.Player × Int) (k : Int) :
    ∀ m : List (Web.Player × Int),
      (Web.insertDesc x m).filter (fun e => e.2 = k) =
        (x :: m).filter (fun e => e.2 = k) := by
  intro m
  induction m with
  | nil => rfl
  | cons y ys ih =>
    unfold Web.insertDesc
    split
    case isTrue hgt =>
      by_cases hx : x.2 = k
      · have hy : ¬ y.2 = k := by omega
        simp only [List.filter_cons, ih]
        simp [hx, hy]
      · by_cases hy : y.2 = k
        · simp only [List.filter_cons, ih]
          simp [hx, hy]
        · simp only [List.filter_cons, ih]
          simp [hx, hy]
    case isFalse hle => rfl

theorem sortDesc_filter (k : Int) :
    ∀ l : List (Web.Player × Int),
      (Web.sortDesc l).filter (fun e => e.2 = k) = l.filter (fun e => e.2 = k) := by
  intro l
  induction l with
  | nil => rfl
  | cons x xs ih =>
    rw [show Web.sortDesc (x :: xs) = Web.insertDesc x (Web.sortDesc xs) from rfl,
      insertDesc_filter]
    by_cases hx : x.2 = k
    · simp only [List.filter_cons]
      simp [hx, ih]
    · simp only [List.filter_cons]
      simp [hx, ih]

/-- C7: `standings` is the per-player totals list sorted by descending total
score: it is a permutation of `standingsBase` (each player paired with its
`getPlayerTotalScore`), its totals are in descending order, and entries with
equal totals keep their original insertion order (the filter at each total
value is unchanged), so the output is uniquely determined by the state. -/
theorem standings_sorted_stable (s : Web.GameState) :
    List.Perm (Web.standings s) (Web.standingsBase s) ∧
    (Web.standings s).Pairwise (fun a b => b.2 ≤ a.2) ∧
    ∀ k : Int, (Web.standings s).filter (fun e => e.2 = k) =
      (Web.standingsBase s).filter (fun e => e.2 = k) :=
  ⟨sortDesc_perm (Web.standingsBase s), sortDesc_pairwise (Web.standingsBase s),
   fun k => sortDesc_filter k (Web.standingsBase s)⟩
